import Mathlib

/-!
Shallow embedding of the HLS playlist pipeline of the ilc-scraper repository
(`downloader.py`, with `find_startswith` from `utils.py`), together with
verification of the specification's claims about it.

Python strings are modelled as Lean `String` (code-point lists), bytes as
`List Nat`, dictionaries as association lists in insertion order, network
fetches and local publication as function parameters, and raising an
exception as returning `none`.
-/

/-- Python `line.startswith(s)`: `s` is a code-point prefix of `line`. -/
def py_startswith (line s : String) : Bool :=
  s.toList.isPrefixOf line.toList

/-- Index of the first occurrence of `pat` as a contiguous sublist, as in
Python `str.find` / the `in` operator. -/
def findOcc (pat : List Char) : List Char → Option Nat
  | [] => if pat.isPrefixOf [] then some 0 else none
  | c :: rest =>
    if pat.isPrefixOf (c :: rest) then some 0
    else (findOcc pat rest).map (fun i => i + 1)

/-- Python `pat in s` on strings. -/
def py_contains (s pat : String) : Bool :=
  (findOcc pat.toList s.toList).isSome

/-- The line-break characters recognised by Python `str.splitlines`. -/
def isLineBreak (c : Char) : Bool :=
  c = Char.ofNat 10 ∨ c = Char.ofNat 11 ∨ c = Char.ofNat 12 ∨ c = Char.ofNat 13 ∨
  c = Char.ofNat 28 ∨ c = Char.ofNat 29 ∨ c = Char.ofNat 30 ∨ c = Char.ofNat 133 ∨
  c = Char.ofNat 8232 ∨ c = Char.ofNat 8233

/-- Split off the first line: returns the line's characters and the rest after
the line break (a `"\r\n"` pair counts as a single break). -/
def takeLine : List Char → List Char × List Char
  | [] => ([], [])
  | c :: rest =>
    if c = '\r' then
      ([], if rest.head? = some '\n' then rest.tail else rest)
    else if isLineBreak c then ([], rest)
    else ((takeLine rest).1.cons c, (takeLine rest).2)

/-- Fuelled worker for `splitlines`; fuel `s.length` always suffices because
`takeLine` consumes at least one character of a nonempty list. -/
def splitlines_go : Nat → List Char → List (List Char)
  | _, [] => []
  | 0, _ :: _ => []
  | fuel + 1, c :: cs =>
    (takeLine (c :: cs)).1 :: splitlines_go fuel (takeLine (c :: cs)).2

/-- Python `str.splitlines`. -/
def splitlines (s : String) : List String :=
  (splitlines_go s.toList.length s.toList).map (fun l => String.mk l)

/-- `utils.find_startswith(lines, s, rev)`: index of the first (or, with
`rev`, last) line starting with `s`, via `enumerate` and an optional
reversal, `none` when there is no such line. -/
def find_startswith (lines : List String) (s : String) (rev : Bool) : Option Nat :=
  let pairs := lines.enum
  let pairs := if rev then pairs.reverse else pairs
  (pairs.find? (fun p => py_startswith p.2 s)).map Prod.fst

/-- Python list slicing `pls[:end]` where `end` may be `None` (whole list). -/
def sliceToOpt (l : List String) : Option Nat → List String
  | none => l
  | some n => l.take n

/-- `downloader.get_angle_playlists`, after `splitlines`: split the playlist
lines into two angles at `#EXT-X-DISCONTINUITY`.  `none` models the
uncaught Python exceptions (`angle2[0]` on an empty list, and indexing with
the `None` returned by a failed reverse `find_startswith`). -/
def get_angle_playlists_of_lines (pls : List String) : Option (List (Nat × List String)) :=
  let headers := sliceToOpt pls (find_startswith pls "#EXT-X-KEY" false)
  match find_startswith pls "#EXT-X-DISCONTINUITY" false with
  | none => some [(1, pls)]
  | some angle1_end =>
    let angle1 := pls.take angle1_end ++ ["#EXT-X-ENDLIST", ""]
    match pls.drop (angle1_end + 1) with
    | [] => none
    | hd :: tl =>
      if py_startswith hd "#EXT-X-KEY" then
        some [(1, angle1), (2, headers ++ hd :: tl)]
      else
        match find_startswith angle1 "#EXT-X-KEY" true with
        | none => none
        | some last_key =>
          some [(1, angle1), (2, headers ++ angle1.getD last_key "" :: hd :: tl)]

/-- `downloader.get_angle_playlists` on the playlist text. -/
def get_angle_playlists (variant_pls : String) : Option (List (Nat × List String)) :=
  get_angle_playlists_of_lines (splitlines variant_pls)

/-- Reference recursion computing the first index whose line starts with
`s`; used to reason about `find_startswith` with `rev := false`. -/
def findFirstIdx (s : String) : List String → Option Nat
  | [] => none
  | l :: rest =>
    if py_startswith l s then some 0
    else (findFirstIdx s rest).map (fun i => i + 1)

/-- Reference recursion computing the last index whose line starts with
`s`; used to reason about `find_startswith` with `rev := true`. -/
def findLastIdx (s : String) : List String → Option Nat
  | [] => none
  | l :: rest =>
    match findLastIdx s rest with
    | some i => some (i + 1)
    | none => if py_startswith l s then some 0 else none

/-- Segment-reference lines of a playlist: the non-directive (not starting
with `#`), nonempty lines.  Spec-side helper for the lossless-partition
claim. -/
def segLines (lines : List String) : List String :=
  lines.filter (fun l => !(py_startswith l "#") && !(l == ""))

/-- Python `max(variants)` (maximum of the dictionary's keys in code-point
order), `none` on an empty dictionary. -/
def dict_max_key (variants : List (String × String)) : Option String :=
  variants.foldl
    (fun acc p =>
      match acc with
      | none => some p.1
      | some m => some (if m < p.1 then p.1 else m))
    none

/-- `downloader.get_variant_playlist`, applied to the fetched
quality-to-text dictionary.  The outer `Option` models the `assert` on the
requested quality (`none` = `AssertionError`); the inner `Option` is the
function's return value (`none` = Python `None`).  The fallback branch is
Python's `variants[max(variants)]`; its key always exists, so the
unreachable `none` of that lookup never arises. -/
def get_variant_playlist (variants : List (String × String)) (quality : String) :
    Option (Option String) :=
  if quality = "720p" ∨ quality = "450p" then
    some
      (if variants.isEmpty then none
       else if variants.lookup quality = none ∨ variants.lookup quality = some "" then
         match dict_max_key variants with
         | none => none
         | some k => variants.lookup k
       else variants.lookup quality)
  else none

/-- The literal head `URI="` of the regex `URI="(?P<key_url>.*?)"`. -/
def URIPAT : List Char := "URI=\"".toList

/-- Split at the first `"`: the characters before it (the non-greedy
capture) and the rest after it. -/
def breakAtQuote : List Char → Option (List Char × List Char)
  | [] => none
  | c :: rest =>
    if c = '\"' then some ([], rest)
    else (breakAtQuote rest).map (fun p => (c :: p.1, p.2))

/-- `PAT.search(line)` for `PAT = URI="(?P<key_url>.*?)"`: the first match,
as (text before the match, captured `key_url`, text after the match). -/
def pat_search (s : List Char) : Option (List Char × List Char × List Char) :=
  match findOcc URIPAT s with
  | none => none
  | some i =>
    match breakAtQuote (s.drop (i + 5)) with
    | none => none
    | some (cap, post) => some (s.take i, cap, post)

/-- Fuelled worker for `PAT.sub`: replace every non-overlapping match by the
literal `repl`, scanning left to right.  Fuel `s.length` always suffices
because each match consumes at least six characters. -/
def pat_sub_go (repl : List Char) : Nat → List Char → List Char
  | 0, s => s
  | fuel + 1, s =>
    match pat_search s with
    | none => s
    | some (pre, _, post) => pre ++ repl ++ pat_sub_go repl fuel post

/-- `PAT.sub(repl, s)` with a literal replacement string. -/
def pat_sub (repl : List Char) (s : List Char) : List Char :=
  pat_sub_go repl s.length s

/-- `real_key = orig_key[::-1][:16]` on the fetched key bytes. -/
def real_key_of (orig_key : List Nat) : List Nat :=
  orig_key.reverse.take 16

/-- One iteration of the `downloader.extract_enc_keys` loop on a single
line.  `fetch` models `sess.get(key_url).content`, `publish` models
`DirServer.get_url(real_key, ".key", "wb")`; `none` models the `TypeError`
raised when `PAT.search(line)` finds no match on a rewritable key line. -/
def extract_key_line (fetch : String → List Nat) (publish : List Nat → String)
    (line : String) : Option String :=
  if !(py_startswith line "#EXT-X-KEY") then some line
  else if py_startswith line "#EXT-X-KEY:METHOD=NONE" then some line
  else
    match pat_search line.toList with
    | none => none
    | some (_, key_url, _) =>
      let real_key := real_key_of (fetch (String.mk key_url))
      let path_uri := publish real_key
      some (String.mk (pat_sub ("URI=\"".toList ++ path_uri.toList ++ ['\"']) line.toList))

/-- `downloader.extract_enc_keys`: rewrite every line in place; the final
list on success, `none` when some line raises. -/
def extract_enc_keys (fetch : String → List Nat) (publish : List Nat → String) :
    List String → Option (List String)
  | [] => some []
  | line :: rest =>
    match extract_key_line fetch publish line with
    | none => none
    | some line2 =>
      match extract_enc_keys fetch publish rest with
      | none => none
      | some rest2 => some (line2 :: rest2)

/-- The `-cookies` argument pair of `downloader.add_inputs`. -/
def cookies_arg (token : String) : List String :=
  ["-cookies", "Bearer=" ++ token ++ "; path=/"]

/-- The extra allowed-extensions / protocol-whitelist arguments. -/
def extra_arg : List String :=
  ["-allowed_extensions", "key,m3u8,ts", "-protocol_whitelist",
   "file,http,https,tcp,tls,crypto"]

/-- The warning printed by `add_inputs` for an invalid angle selector. -/
def invalid_angle_msg (angle : Nat) (angle_playlists : List (Nat × List String)) : String :=
  "Invalid angle " ++ toString angle ++ " selected. " ++
    "Downloading available angles: " ++
    String.intercalate ", " (angle_playlists.map (fun p => toString p.1)) ++
    ". (where 0=both, 1=right, 2=left)"

/-- The per-angle loop of `add_inputs`: returns the argument-list additions
and the printed messages.  `geturl` models `DirServer.get_url` on the
joined playlist text. -/
def add_inputs_loop (fetch : String → List Nat) (publish : List Nat → String)
    (geturl : String → String) (token : String) (angle : Nat) :
    List (Nat × List String) → Option (List String × List String)
  | [] => some ([], [])
  | (angle_num, angle_pls) :: rest =>
    if angle ≠ 0 ∧ angle_num ≠ angle then
      add_inputs_loop fetch publish geturl token angle rest
    else
      match extract_enc_keys fetch publish angle_pls with
      | none => none
      | some new_pls =>
        match add_inputs_loop fetch publish geturl token angle rest with
        | none => none
        | some (cmds, msgs) =>
          some (cookies_arg token ++ extra_arg ++
                  ["-i", geturl (String.intercalate "\n" new_pls)] ++ cmds,
                ("Extracting encryption keys for angle " ++ toString angle_num) :: msgs)

/-- `downloader.add_inputs`: validate the angle selector, extract keys and
add one `-i` input per selected angle, then append the `-map` track
arguments.  Returns the grown argument list and the printed messages. -/
def add_inputs (fetch : String → List Nat) (publish : List Nat → String)
    (geturl : String → String) (token : String) (cmd : List String)
    (angle_playlists : List (Nat × List String)) (angle : Nat) :
    Option (List String × List String) :=
  let checked :=
    if angle > angle_playlists.length then
      (0, [invalid_angle_msg angle angle_playlists])
    else (angle, ([] : List String))
  match add_inputs_loop fetch publish geturl token checked.1 angle_playlists with
  | none => none
  | some (cmds, msgs) =>
    some (cmd ++ cmds ++
            (List.range (if checked.1 ≠ 0 then 1 else angle_playlists.length)).flatMap
              (fun i => ["-map", toString i ++ ":v:0"]) ++
            ["-map", "0:a:0"],
          checked.2 ++ msgs)

/-- The core of `downloader.download_stream` from the point where the
variant playlist text is in hand: choose the angle playlists (splitting
only when the text contains a key directive), add the inputs, and append
the output muxing arguments.  Returns the final external-tool argument
list and the printed messages. -/
def download_stream_core (fetch : String → List Nat) (publish : List Nat → String)
    (geturl : String → String) (token : String) (variant_pls : String)
    (output_file : String) (angle : Nat) : Option (List String × List String) :=
  let cmd := ["ffmpeg", "-loglevel", "error"]
  match
    (if py_contains variant_pls "#EXT-X-KEY" then get_angle_playlists variant_pls
     else some [(1, splitlines variant_pls)])
  with
  | none => none
  | some angle_playlists =>
    if angle_playlists.isEmpty then none
    else
      match add_inputs fetch publish geturl token cmd angle_playlists angle with
      | none => none
      | some (cmd2, msgs) => some (cmd2 ++ ["-c", "copy", output_file], msgs)

section FindStartswithBridge

theorem enumFrom_find_startswith (s : String) (l : List String) (n : Nat) :
    ((List.enumFrom n l).find? (fun p => py_startswith p.2 s)).map Prod.fst
      = (findFirstIdx s l).map (fun i => n + i) := by
  induction l generalizing n with
  | nil => rfl
  | cons a l ih =>
    by_cases h : py_startswith a s
    · simp [List.enumFrom, List.find?, h, findFirstIdx]
    · simp only [List.enumFrom, List.find?, h, findFirstIdx]
      rw [ih (n + 1)]
      cases findFirstIdx s l with
      | none => rfl
      | some i => simp [Option.map]; omega

theorem enumFrom_rev_find_startswith (s : String) (l : List String) (n : Nat) :
    ((List.enumFrom n l).reverse.find? (fun p => py_startswith p.2 s)).map Prod.fst
      = (findLastIdx s l).map (fun i => n + i) := by
  induction l generalizing n with
  | nil => rfl
  | cons a l ih =>
    simp only [List.enumFrom, List.reverse_cons, List.find?_append, findLastIdx]
    cases hrest : findLastIdx s l with
    | some i =>
      have := ih (n + 1)
      rw [hrest] at this
      cases hfind : (List.enumFrom (n + 1) l).reverse.find? (fun p => py_startswith p.2 s) with
      | none => rw [hfind] at this; simp at this
      | some q =>
        rw [hfind] at this
        simp only [Option.or_some, Option.map_some', Option.some.injEq]
        simp only [Option.map_some', Option.some.injEq] at this
        omega
    | none =>
      have := ih (n + 1)
      rw [hrest] at this
      cases hfind : (List.enumFrom (n + 1) l).reverse.find? (fun p => py_startswith p.2 s) with
      | some q => rw [hfind] at this; simp at this
      | none =>
        by_cases h : py_startswith a s <;>
          simp [hfind, List.find?, h]

theorem find_startswith_false_eq (lines : List String) (s : String) :
    find_startswith lines s false = findFirstIdx s lines := by
  have h := enumFrom_find_startswith s lines 0
  simp only [find_startswith, List.enum, if_neg Bool.false_ne_true] at *
  rw [h]
  cases findFirstIdx s lines <;> simp

theorem find_startswith_true_eq (lines : List String) (s : String) :
    find_startswith lines s true = findLastIdx s lines := by
  have h := enumFrom_rev_find_startswith s lines 0
  simp only [find_startswith, List.enum, if_true] at *
  rw [h]
  cases findLastIdx s lines <;> simp

end FindStartswithBridge

section FindIdxLemmas

theorem findFirstIdx_eq_none_iff (s : String) (lines : List String) :
    findFirstIdx s lines = none ↔ ∀ l ∈ lines, py_startswith l s = false := by
  induction lines with
  | nil => simp [findFirstIdx]
  | cons a rest ih =>
    by_cases h : py_startswith a s = true
    · simp [findFirstIdx, h]
    · rw [Bool.not_eq_true] at h
      simp only [findFirstIdx, h, Bool.false_eq_true, if_false, Option.map_eq_none']
      rw [ih]
      simp [h]

theorem findLastIdx_eq_none_iff (s : String) (lines : List String) :
    findLastIdx s lines = none ↔ ∀ l ∈ lines, py_startswith l s = false := by
  induction lines with
  | nil => simp [findLastIdx]
  | cons a rest ih =>
    simp only [findLastIdx]
    cases hrest : findLastIdx s rest with
    | some i =>
      simp only [reduceCtorEq, false_iff]
      intro hall
      have : findLastIdx s rest = none := (ih).mpr (fun l hl => hall l (List.mem_cons_of_mem _ hl))
      rw [hrest] at this
      exact Option.noConfusion this
    | none =>
      by_cases h : py_startswith a s = true
      · simp [h]
      · rw [Bool.not_eq_true] at h
        simp only [h, Bool.false_eq_true, if_false, true_iff]
        intro l hl
        rcases List.mem_cons.mp hl with rfl | hl
        · exact h
        · exact (ih.mp hrest) l hl

theorem findFirstIdx_isSome_of_mem {s : String} {lines : List String} {l : String}
    (hl : l ∈ lines) (hstart : py_startswith l s = true) :
    ∃ j, findFirstIdx s lines = some j := by
  cases hj : findFirstIdx s lines with
  | some j => exact ⟨j, rfl⟩
  | none =>
    have := (findFirstIdx_eq_none_iff s lines).mp hj l hl
    rw [hstart] at this
    exact Bool.noConfusion this

theorem findFirstIdx_some_spec (s : String) (lines : List String) (k : Nat)
    (h : findFirstIdx s lines = some k) :
    k < lines.length ∧ py_startswith (lines.getD k "") s = true ∧
      ∀ j, j < k → py_startswith (lines.getD j "") s = false := by
  induction lines generalizing k with
  | nil => exact Option.noConfusion h
  | cons a rest ih =>
    by_cases ha : py_startswith a s = true
    · simp only [findFirstIdx, ha, if_true, Option.some.injEq] at h
      subst h
      refine ⟨Nat.succ_pos _, ha, fun j hj => absurd hj (Nat.not_lt_zero j)⟩
    · rw [Bool.not_eq_true] at ha
      simp only [findFirstIdx, ha, Bool.false_eq_true, if_false, Option.map_eq_some'] at h
      obtain ⟨i, hi, rfl⟩ := h
      obtain ⟨h1, h2, h3⟩ := ih i hi
      refine ⟨Nat.succ_lt_succ h1, h2, ?_⟩
      intro j hj
      cases j with
      | zero => exact ha
      | succ j => exact h3 j (Nat.lt_of_succ_lt_succ hj)

theorem getLast?_cons_of_some {α : Type} (a : α) {l : List α} {x : α}
    (h : l.getLast? = some x) : (a :: l).getLast? = some x := by
  cases l with
  | nil => exact Option.noConfusion h
  | cons b t => rw [List.getLast?_cons_cons]; exact h

theorem findLastIdx_some_spec (s : String) (lines : List String) (m : Nat)
    (h : findLastIdx s lines = some m) :
    m < lines.length ∧ lines.getD m "" ∈ lines ∧
      py_startswith (lines.getD m "") s = true ∧
      (lines.filter (fun l => py_startswith l s)).getLast? = some (lines.getD m "") := by
  induction lines generalizing m with
  | nil => exact Option.noConfusion h
  | cons a rest ih =>
    simp only [findLastIdx] at h
    cases hrest : findLastIdx s rest with
    | some i =>
      rw [hrest] at h
      simp only [Option.some.injEq] at h
      subst h
      obtain ⟨h1, h2, h3, h4⟩ := ih i hrest
      have hget : (a :: rest).getD (i + 1) "" = rest.getD i "" := by
        simp [List.getD_cons_succ]
      rw [hget]
      refine ⟨Nat.succ_lt_succ h1, List.mem_cons_of_mem _ h2, h3, ?_⟩
      rw [List.filter_cons]
      by_cases ha : py_startswith a s = true
      · simp only [ha, if_true]
        exact getLast?_cons_of_some a h4
      · rw [Bool.not_eq_true] at ha
        simp only [ha, Bool.false_eq_true, if_false]
        exact h4
    | none =>
      rw [hrest] at h
      by_cases ha : py_startswith a s = true
      · simp only [ha, if_true, Option.some.injEq] at h
        subst h
        have hfr : rest.filter (fun l => py_startswith l s) = [] := by
          rw [List.filter_eq_nil_iff]
          intro l hl
          have := (findLastIdx_eq_none_iff s rest).mp hrest l hl
          simp [this]
        refine ⟨Nat.succ_pos _, List.mem_cons_self _ _, ha, ?_⟩
        rw [List.filter_cons]
        simp [ha, hfr]
      · rw [Bool.not_eq_true] at ha
        simp only [ha, Bool.false_eq_true, if_false] at h
        exact Option.noConfusion h

end FindIdxLemmas

section PrefixLemmas

theorem isPrefixOf_exists : ∀ (p l : List Char), p.isPrefixOf l = true ↔ ∃ t, l = p ++ t := by
  intro p
  induction p with
  | nil => intro l; simp [List.isPrefixOf]
  | cons a p ih =>
    intro l
    cases l with
    | nil => simp [List.isPrefixOf]
    | cons b t =>
      simp only [List.isPrefixOf, Bool.and_eq_true, beq_iff_eq, ih, List.cons_append,
        List.cons.injEq]
      constructor
      · rintro ⟨hab, u, rfl⟩; exact ⟨u, hab.symm, rfl⟩
      · rintro ⟨u, hba, rfl⟩; exact ⟨hba.symm, u, rfl⟩

theorem py_startswith_mono {l p q : String} (h1 : py_startswith p q = true)
    (h2 : py_startswith l p = true) : py_startswith l q = true := by
  unfold py_startswith at *
  rw [isPrefixOf_exists] at *
  obtain ⟨t1, ht1⟩ := h1
  obtain ⟨t2, ht2⟩ := h2
  exact ⟨t1 ++ t2, by rw [ht2, ht1, List.append_assoc]⟩

end PrefixLemmas

section AngleSplit

/-- Full characterisation of a successful two-angle split: shared helper for
the claims about `get_angle_playlists`. -/
theorem get_angle_split_spec (pls : List String) (k : Nat) (res : List (Nat × List String))
    (hk : find_startswith pls "#EXT-X-DISCONTINUITY" false = some k)
    (hres : get_angle_playlists_of_lines pls = some res) :
    ∃ hd tl j, pls.drop (k + 1) = hd :: tl ∧
      find_startswith pls "#EXT-X-KEY" false = some j ∧
      ((py_startswith hd "#EXT-X-KEY" = true ∧
          res = [(1, pls.take k ++ ["#EXT-X-ENDLIST", ""]), (2, pls.take j ++ hd :: tl)]) ∨
        (py_startswith hd "#EXT-X-KEY" = false ∧
          ∃ keyline, py_startswith keyline "#EXT-X-KEY" = true ∧
            ((pls.take k ++ ["#EXT-X-ENDLIST", ""]).filter
                (fun l => py_startswith l "#EXT-X-KEY")).getLast? = some keyline ∧
            res = [(1, pls.take k ++ ["#EXT-X-ENDLIST", ""]),
                   (2, pls.take j ++ keyline :: hd :: tl)])) := by
  simp only [get_angle_playlists_of_lines, hk] at hres
  cases hdrop : pls.drop (k + 1) with
  | nil => rw [hdrop] at hres; exact absurd hres (by simp)
  | cons hd tl =>
    simp only [hdrop] at hres
    by_cases hhd : py_startswith hd "#EXT-X-KEY" = true
    · rw [if_pos hhd] at hres
      have hmem : hd ∈ pls :=
        List.drop_subset (k + 1) pls (by rw [hdrop]; exact List.mem_cons_self hd tl)
      obtain ⟨j, hj'⟩ := findFirstIdx_isSome_of_mem hmem hhd
      have hj : find_startswith pls "#EXT-X-KEY" false = some j := by
        rw [find_startswith_false_eq]; exact hj'
      rw [hj] at hres
      simp only [sliceToOpt, Option.some.injEq] at hres
      exact ⟨hd, tl, j, rfl, hj, Or.inl ⟨hhd, hres.symm⟩⟩
    · rw [Bool.not_eq_true] at hhd
      rw [if_neg (by simp [hhd])] at hres
      cases hlast : find_startswith (pls.take k ++ ["#EXT-X-ENDLIST", ""]) "#EXT-X-KEY" true with
      | none => rw [hlast] at hres; exact absurd hres (by simp)
      | some m =>
        rw [hlast] at hres
        have hlast' := hlast
        rw [find_startswith_true_eq] at hlast'
        obtain ⟨h1, h2, h3, h4⟩ := findLastIdx_some_spec _ _ _ hlast'
        have hmemp : (pls.take k ++ ["#EXT-X-ENDLIST", ""]).getD m "" ∈ pls := by
          rcases List.mem_append.mp h2 with hA | hB
          · exact List.take_subset k pls hA
          · exfalso
            simp only [List.mem_cons, List.mem_singleton, List.not_mem_nil, or_false] at hB
            rcases hB with hB | hB <;> rw [hB] at h3 <;> exact absurd h3 (by decide)
        obtain ⟨j, hj'⟩ := findFirstIdx_isSome_of_mem hmemp h3
        have hj : find_startswith pls "#EXT-X-KEY" false = some j := by
          rw [find_startswith_false_eq]; exact hj'
        rw [hj] at hres
        simp only [sliceToOpt, Option.some.injEq] at hres
        exact ⟨hd, tl, j, rfl, hj,
          Or.inr ⟨hhd, (pls.take k ++ ["#EXT-X-ENDLIST", ""]).getD m "", h3, h4, hres.symm⟩⟩

/-- Claim C3: a variant playlist with no discontinuity-marker line is
returned as exactly one angle, numbered 1, equal to the entire input,
unmodified. -/
theorem claim_C3_single_angle (pls : List String)
    (h : ∀ l ∈ pls, py_startswith l "#EXT-X-DISCONTINUITY" = false) :
    get_angle_playlists_of_lines pls = some [(1, pls)] := by
  have hnone : find_startswith pls "#EXT-X-DISCONTINUITY" false = none := by
    rw [find_startswith_false_eq, findFirstIdx_eq_none_iff]
    exact h
  simp [get_angle_playlists_of_lines, hnone]

theorem claim_C3_witness :
    get_angle_playlists_of_lines ["#EXTM3U", "#EXT-X-KEY:METHOD=NONE", "seg1.ts"] =
      some [(1, ["#EXTM3U", "#EXT-X-KEY:METHOD=NONE", "seg1.ts"])] :=
  claim_C3_single_angle _ (by decide)

/-- Claim C10: when the playlist has a discontinuity marker, the first line
strictly after the marker does not start with the key-directive prefix,
and no line before the marker starts with `#EXT-X-KEY`, the reverse key
search returns `None` and indexing with it raises, so
`get_angle_playlists` produces no result. -/
theorem claim_C10_missing_key (pls : List String) (k : Nat) (hd : String) (tl : List String)
    (hk : find_startswith pls "#EXT-X-DISCONTINUITY" false = some k)
    (hdrop : pls.drop (k + 1) = hd :: tl)
    (hhd : py_startswith hd "#EXT-X-KEY" = false)
    (hnokey : ∀ l ∈ pls.take k, py_startswith l "#EXT-X-KEY" = false) :
    get_angle_playlists_of_lines pls = none := by
  have hlast : find_startswith (pls.take k ++ ["#EXT-X-ENDLIST", ""]) "#EXT-X-KEY" true = none := by
    rw [find_startswith_true_eq, findLastIdx_eq_none_iff]
    intro l hl
    rcases List.mem_append.mp hl with h1 | h2
    · exact hnokey l h1
    · simp only [List.mem_cons, List.mem_singleton, List.not_mem_nil, or_false] at h2
      rcases h2 with rfl | rfl <;> decide
  simp only [get_angle_playlists_of_lines, hk, hdrop]
  rw [if_neg (by simp [hhd])]
  rw [hlast]

theorem claim_C10_witness :
    get_angle_playlists_of_lines ["#EXTM3U", "one.ts", "#EXT-X-DISCONTINUITY", "two.ts"] = none :=
  claim_C10_missing_key _ 2 "two.ts" [] (by decide) (by decide) (by decide) (by decide)

end AngleSplit

section SegLinesLemmas

theorem segLines_append (l1 l2 : List String) :
    segLines (l1 ++ l2) = segLines l1 ++ segLines l2 := by
  simp [segLines, List.filter_append]

theorem segLines_cons_hash (x : String) (l : List String)
    (h : py_startswith x "#" = true) : segLines (x :: l) = segLines l := by
  simp [segLines, List.filter_cons, h]

theorem segLines_eq_nil (l : List String)
    (h : ∀ x ∈ l, py_startswith x "#" = true ∨ x = "") : segLines l = [] := by
  rw [segLines, List.filter_eq_nil_iff]
  intro a ha
  rcases h a ha with h1 | h1 <;> simp [h1]

end SegLinesLemmas

section ClaimsC1C2

/-- Claim C2 (amended: provided the split returns a result): for a variant
playlist with a discontinuity marker at first index `k`, angle 1 is the
lines strictly before the marker plus `#EXT-X-ENDLIST` and a blank line;
angle 2 is the header lines (those preceding the first key directive),
then — when the first line after the marker does not start with the key
prefix — the last key directive of angle 1, then the lines strictly after
the marker. -/
theorem claim_C2_split_shape (pls : List String) (k : Nat) (res : List (Nat × List String))
    (hk : find_startswith pls "#EXT-X-DISCONTINUITY" false = some k)
    (hres : get_angle_playlists_of_lines pls = some res) :
    ∃ hd tl j, pls.drop (k + 1) = hd :: tl ∧
      find_startswith pls "#EXT-X-KEY" false = some j ∧
      ((py_startswith hd "#EXT-X-KEY" = true ∧
          res = [(1, pls.take k ++ ["#EXT-X-ENDLIST", ""]), (2, pls.take j ++ hd :: tl)]) ∨
        (py_startswith hd "#EXT-X-KEY" = false ∧
          ∃ keyline, py_startswith keyline "#EXT-X-KEY" = true ∧
            ((pls.take k ++ ["#EXT-X-ENDLIST", ""]).filter
                (fun l => py_startswith l "#EXT-X-KEY")).getLast? = some keyline ∧
            res = [(1, pls.take k ++ ["#EXT-X-ENDLIST", ""]),
                   (2, pls.take j ++ keyline :: hd :: tl)])) :=
  get_angle_split_spec pls k res hk hres

/-- C2's counterexample to the claim as frozen: a playlist containing a
discontinuity marker on which `get_angle_playlists` raises instead of
producing the described split (`angle2[0]` on an empty list). -/
theorem claim_C2_counterexample :
    find_startswith ["#EXTM3U", "#EXT-X-DISCONTINUITY"] "#EXT-X-DISCONTINUITY" false = some 1 ∧
      get_angle_playlists_of_lines ["#EXTM3U", "#EXT-X-DISCONTINUITY"] = none := by
  decide

theorem claim_C2_witness :
    (find_startswith
        ["#EXTM3U", "#EXT-X-KEY:METHOD=AES-128,URI=\"u\"", "a1.ts", "#EXT-X-DISCONTINUITY",
         "a2.ts"] "#EXT-X-DISCONTINUITY" false = some 3 ∧
      get_angle_playlists_of_lines
        ["#EXTM3U", "#EXT-X-KEY:METHOD=AES-128,URI=\"u\"", "a1.ts", "#EXT-X-DISCONTINUITY",
         "a2.ts"] =
        some [(1, ["#EXTM3U", "#EXT-X-KEY:METHOD=AES-128,URI=\"u\"", "a1.ts",
                   "#EXT-X-ENDLIST", ""]),
              (2, ["#EXTM3U", "#EXT-X-KEY:METHOD=AES-128,URI=\"u\"", "a2.ts"])]) ∧
    (∃ hd tl j,
      (["#EXTM3U", "#EXT-X-KEY:METHOD=AES-128,URI=\"u\"", "a1.ts", "#EXT-X-DISCONTINUITY",
        "a2.ts"] : List String).drop (3 + 1) = hd :: tl ∧
      find_startswith
        ["#EXTM3U", "#EXT-X-KEY:METHOD=AES-128,URI=\"u\"", "a1.ts", "#EXT-X-DISCONTINUITY",
         "a2.ts"] "#EXT-X-KEY" false = some j ∧
      ((py_startswith hd "#EXT-X-KEY" = true ∧
          [(1, ["#EXTM3U", "#EXT-X-KEY:METHOD=AES-128,URI=\"u\"", "a1.ts", "#EXT-X-ENDLIST",
                ""]),
           (2, ["#EXTM3U", "#EXT-X-KEY:METHOD=AES-128,URI=\"u\"", "a2.ts"])] =
            [(1, (["#EXTM3U", "#EXT-X-KEY:METHOD=AES-128,URI=\"u\"", "a1.ts",
                   "#EXT-X-DISCONTINUITY", "a2.ts"] : List String).take 3 ++
                  ["#EXT-X-ENDLIST", ""]),
             (2, (["#EXTM3U", "#EXT-X-KEY:METHOD=AES-128,URI=\"u\"", "a1.ts",
                   "#EXT-X-DISCONTINUITY", "a2.ts"] : List String).take j ++ hd :: tl)]) ∨
        (py_startswith hd "#EXT-X-KEY" = false ∧
          ∃ keyline, py_startswith keyline "#EXT-X-KEY" = true ∧
            (((["#EXTM3U", "#EXT-X-KEY:METHOD=AES-128,URI=\"u\"", "a1.ts",
                "#EXT-X-DISCONTINUITY", "a2.ts"] : List String).take 3 ++
                ["#EXT-X-ENDLIST", ""]).filter
                (fun l => py_startswith l "#EXT-X-KEY")).getLast? = some keyline ∧
            [(1, ["#EXTM3U", "#EXT-X-KEY:METHOD=AES-128,URI=\"u\"", "a1.ts", "#EXT-X-ENDLIST",
                  ""]),
             (2, ["#EXTM3U", "#EXT-X-KEY:METHOD=AES-128,URI=\"u\"", "a2.ts"])] =
              [(1, (["#EXTM3U", "#EXT-X-KEY:METHOD=AES-128,URI=\"u\"", "a1.ts",
                     "#EXT-X-DISCONTINUITY", "a2.ts"] : List String).take 3 ++
                    ["#EXT-X-ENDLIST", ""]),
               (2, (["#EXTM3U", "#EXT-X-KEY:METHOD=AES-128,URI=\"u\"", "a1.ts",
                     "#EXT-X-DISCONTINUITY", "a2.ts"] : List String).take j ++
                    keyline :: hd :: tl)]))) :=
  ⟨⟨by decide, by decide⟩, claim_C2_split_shape _ 3 _ (by decide) (by decide)⟩

/-- Claim C1 (amended: provided the split returns a result and every header
line — the lines preceding the first key directive — is a directive or
blank): the split yields exactly two angles whose segment-reference lines,
concatenated in order, equal the original playlist's segment-reference
lines. -/
theorem claim_C1_partition (pls : List String) (k : Nat) (res : List (Nat × List String))
    (hk : find_startswith pls "#EXT-X-DISCONTINUITY" false = some k)
    (hres : get_angle_playlists_of_lines pls = some res)
    (hhdr : ∀ l ∈ sliceToOpt pls (find_startswith pls "#EXT-X-KEY" false),
      py_startswith l "#" = true ∨ l = "") :
    ∃ a1 a2, res = [(1, a1), (2, a2)] ∧ segLines a1 ++ segLines a2 = segLines pls := by
  obtain ⟨hd, tl, j, hdrop, hj, hcase⟩ := get_angle_split_spec pls k res hk hres
  rw [hj] at hhdr
  simp only [sliceToOpt] at hhdr
  have hsegj : segLines (pls.take j) = [] := segLines_eq_nil _ hhdr
  have hk' := hk
  rw [find_startswith_false_eq] at hk'
  obtain ⟨hklen, hkstart, -⟩ := findFirstIdx_some_spec _ _ _ hk'
  have hmark : py_startswith (pls.getD k "") "#" = true :=
    py_startswith_mono (by decide) hkstart
  have hdecomp : segLines pls = segLines (pls.take k) ++ segLines (hd :: tl) := by
    conv_lhs => rw [← List.take_append_drop k pls]
    rw [segLines_append]
    congr 1
    have hdk : pls.drop k = pls.getD k "" :: pls.drop (k + 1) := by
      rw [List.getD_eq_getElem _ _ hklen]
      exact List.drop_eq_getElem_cons hklen
    rw [hdk, hdrop, segLines_cons_hash _ _ hmark]
  have hE : segLines ["#EXT-X-ENDLIST", ""] = [] := by decide
  rcases hcase with ⟨hhd, rfl⟩ | ⟨hhd, keyline, hkey, hfilt, rfl⟩
  · refine ⟨_, _, rfl, ?_⟩
    rw [segLines_append, segLines_append, hE, hsegj, hdecomp, List.append_nil, List.nil_append]
  · refine ⟨_, _, rfl, ?_⟩
    have hkl : py_startswith keyline "#" = true := py_startswith_mono (by decide) hkey
    rw [segLines_append, segLines_append, hE, hsegj, segLines_cons_hash _ _ hkl, hdecomp,
      List.append_nil, List.nil_append]

/-- C1's counterexamples to the claim as frozen: a marker-bearing playlist
on which `get_angle_playlists` raises (no two-angle result at all), and a
marker-bearing playlist with a segment line among the headers on which the
split succeeds but duplicates that segment, breaking the lossless
partition. -/
theorem claim_C1_counterexample :
    (find_startswith ["#EXT-X-KEY:K", "#EXT-X-DISCONTINUITY"] "#EXT-X-DISCONTINUITY" false =
        some 1 ∧
      get_angle_playlists_of_lines ["#EXT-X-KEY:K", "#EXT-X-DISCONTINUITY"] = none) ∧
    (get_angle_playlists_of_lines
        ["seg0.ts", "#EXT-X-KEY:K", "#EXT-X-DISCONTINUITY", "#EXT-X-KEY:J", "seg2.ts"] =
        some [(1, ["seg0.ts", "#EXT-X-KEY:K", "#EXT-X-ENDLIST", ""]),
              (2, ["seg0.ts", "#EXT-X-KEY:J", "seg2.ts"])] ∧
      segLines ["seg0.ts", "#EXT-X-KEY:K", "#EXT-X-ENDLIST", ""] ++
          segLines ["seg0.ts", "#EXT-X-KEY:J", "seg2.ts"] ≠
        segLines ["seg0.ts", "#EXT-X-KEY:K", "#EXT-X-DISCONTINUITY", "#EXT-X-KEY:J",
                  "seg2.ts"]) := by
  decide

theorem claim_C1_witness :
    (find_startswith ["#EXTM3U", "#EXT-X-KEY:A", "s1.ts", "#EXT-X-DISCONTINUITY",
        "#EXT-X-KEY:B", "s2.ts"] "#EXT-X-DISCONTINUITY" false = some 3 ∧
      get_angle_playlists_of_lines
        ["#EXTM3U", "#EXT-X-KEY:A", "s1.ts", "#EXT-X-DISCONTINUITY", "#EXT-X-KEY:B",
         "s2.ts"] =
        some [(1, ["#EXTM3U", "#EXT-X-KEY:A", "s1.ts", "#EXT-X-ENDLIST", ""]),
              (2, ["#EXTM3U", "#EXT-X-KEY:B", "s2.ts"])] ∧
      ∀ l ∈ sliceToOpt
          ["#EXTM3U", "#EXT-X-KEY:A", "s1.ts", "#EXT-X-DISCONTINUITY", "#EXT-X-KEY:B",
           "s2.ts"]
          (find_startswith
            ["#EXTM3U", "#EXT-X-KEY:A", "s1.ts", "#EXT-X-DISCONTINUITY", "#EXT-X-KEY:B",
             "s2.ts"] "#EXT-X-KEY" false),
        py_startswith l "#" = true ∨ l = "") ∧
    (∃ a1 a2,
      ([(1, ["#EXTM3U", "#EXT-X-KEY:A", "s1.ts", "#EXT-X-ENDLIST", ""]),
        (2, ["#EXTM3U", "#EXT-X-KEY:B", "s2.ts"])] : List (Nat × List String)) =
          [(1, a1), (2, a2)] ∧
      segLines a1 ++ segLines a2 =
        segLines ["#EXTM3U", "#EXT-X-KEY:A", "s1.ts", "#EXT-X-DISCONTINUITY", "#EXT-X-KEY:B",
                  "s2.ts"]) :=
  ⟨⟨by decide, by decide, by decide⟩, claim_C1_partition _ 3 _ (by decide) (by decide) (by decide)⟩

end ClaimsC1C2

section RegexLemmas

theorem URIPAT_eq : URIPAT = ['U', 'R', 'I', '=', '\"'] := rfl

theorem no_straddle (a : Char) (u rest : List Char) (hq : '\"' ∉ a :: u) :
    ¬(URIPAT.isPrefixOf (a :: (u ++ (URIPAT ++ rest))) = true) := by
  intro h
  rw [isPrefixOf_exists] at h
  obtain ⟨t, ht⟩ := h
  match u with
  | [] =>
    rw [URIPAT_eq] at ht
    simp only [List.cons_append, List.nil_append, List.cons.injEq] at ht
    exact absurd ht.2.1 (by decide)
  | [b] =>
    rw [URIPAT_eq] at ht
    simp only [List.cons_append, List.nil_append, List.cons.injEq] at ht
    exact absurd ht.2.2.1 (by decide)
  | [b, c] =>
    rw [URIPAT_eq] at ht
    simp only [List.cons_append, List.nil_append, List.cons.injEq] at ht
    exact absurd ht.2.2.2.1 (by decide)
  | [b, c, d] =>
    rw [URIPAT_eq] at ht
    simp only [List.cons_append, List.nil_append, List.cons.injEq] at ht
    exact absurd ht.2.2.2.2.1 (by decide)
  | b :: c :: d :: e :: u' =>
    rw [URIPAT_eq] at ht
    simp only [List.cons_append, List.cons.injEq] at ht
    apply hq
    rw [← ht.2.2.2.2.1]
    simp

theorem occ_at (pre rest : List Char) (hq : '\"' ∉ pre) :
    findOcc URIPAT (pre ++ (URIPAT ++ rest)) = some pre.length := by
  induction pre with
  | nil =>
    have hpref : URIPAT.isPrefixOf (URIPAT ++ rest) = true :=
      (isPrefixOf_exists _ _).mpr ⟨rest, rfl⟩
    rw [List.nil_append]
    rw [show URIPAT ++ rest = 'U' :: ('R' :: 'I' :: '=' :: '\"' :: rest) from rfl] at hpref ⊢
    simp only [findOcc]
    rw [if_pos hpref]
    rfl
  | cons a pre ih =>
    have hq' : '\"' ∉ pre := fun h => hq (List.mem_cons_of_mem _ h)
    have hns := no_straddle a pre rest hq
    rw [List.cons_append]
    simp only [findOcc]
    rw [if_neg hns, ih hq']
    rfl

theorem breakAtQuote_spec (url post : List Char) (hq : '\"' ∉ url) :
    breakAtQuote (url ++ '\"' :: post) = some (url, post) := by
  induction url with
  | nil => simp [breakAtQuote]
  | cons c u ih =>
    have hc : ¬(c = '\"') := fun h => hq (by rw [h]; exact List.mem_cons_self _ _)
    have ih' := ih (fun h => hq (List.mem_cons_of_mem _ h))
    simp [breakAtQuote, hc, ih']

theorem pat_search_decomp (pre url post : List Char) (hqpre : '\"' ∉ pre)
    (hqurl : '\"' ∉ url) :
    pat_search (pre ++ URIPAT ++ url ++ '\"' :: post) = some (pre, url, post) := by
  have hs : pre ++ URIPAT ++ url ++ '\"' :: post =
      pre ++ (URIPAT ++ (url ++ '\"' :: post)) := by
    simp [List.append_assoc]
  rw [hs]
  have h1 : findOcc URIPAT (pre ++ (URIPAT ++ (url ++ '\"' :: post))) = some pre.length :=
    occ_at pre (url ++ '\"' :: post) hqpre
  have hdrop : (pre ++ (URIPAT ++ (url ++ '\"' :: post))).drop (pre.length + 5) =
      url ++ '\"' :: post := by
    rw [show pre ++ (URIPAT ++ (url ++ '\"' :: post)) =
          (pre ++ URIPAT) ++ (url ++ '\"' :: post) by simp [List.append_assoc]]
    apply List.drop_left'
    rw [List.length_append]
    rfl
  have h2 : breakAtQuote ((pre ++ (URIPAT ++ (url ++ '\"' :: post))).drop (pre.length + 5)) =
      some (url, post) := by
    rw [hdrop]; exact breakAtQuote_spec url post hqurl
  have htake : (pre ++ (URIPAT ++ (url ++ '\"' :: post))).take pre.length = pre :=
    List.take_left pre _
  simp only [pat_search, h1, h2, htake]

theorem pat_search_none (s : List Char) (h : findOcc URIPAT s = none) :
    pat_search s = none := by
  simp [pat_search, h]

theorem pat_sub_go_of_none (repl : List Char) (fuel : Nat) (s : List Char)
    (h : pat_search s = none) : pat_sub_go repl fuel s = s := by
  cases fuel with
  | zero => rfl
  | succ f => simp [pat_sub_go, h]

theorem pat_sub_go_single (repl pre url post : List Char) (fuel : Nat)
    (hqpre : '\"' ∉ pre) (hqurl : '\"' ∉ url) (hpost : findOcc URIPAT post = none) :
    pat_sub_go repl (fuel + 1) (pre ++ URIPAT ++ url ++ '\"' :: post) =
      pre ++ repl ++ post := by
  simp only [pat_sub_go, pat_search_decomp pre url post hqpre hqurl]
  rw [pat_sub_go_of_none repl fuel post (pat_search_none post hpost)]

theorem pat_sub_single (repl pre url post : List Char)
    (hqpre : '\"' ∉ pre) (hqurl : '\"' ∉ url) (hpost : findOcc URIPAT post = none) :
    pat_sub repl (pre ++ URIPAT ++ url ++ '\"' :: post) = pre ++ repl ++ post := by
  unfold pat_sub
  cases hlen : (pre ++ URIPAT ++ url ++ '\"' :: post).length with
  | zero =>
    exfalso
    rw [List.length_append, List.length_append, List.length_append] at hlen
    simp [URIPAT_eq] at hlen
  | succ n =>
    exact pat_sub_go_single repl pre url post n hqpre hqurl hpost

end RegexLemmas

section KeyRewriteLemmas

theorem extract_key_line_nonkey (fetch : String → List Nat) (publish : List Nat → String)
    (line : String) (h : py_startswith line "#EXT-X-KEY" = false) :
    extract_key_line fetch publish line = some line := by
  simp [extract_key_line, h]

theorem extract_key_line_method_none (fetch : String → List Nat) (publish : List Nat → String)
    (line : String) (h : py_startswith line "#EXT-X-KEY:METHOD=NONE" = true) :
    extract_key_line fetch publish line = some line := by
  have h2 : py_startswith line "#EXT-X-KEY" = true :=
    py_startswith_mono (by decide) h
  simp [extract_key_line, h2, h]

theorem extract_key_line_rewrite (fetch : String → List Nat) (publish : List Nat → String)
    (pre url post : List Char)
    (hkey : py_startswith (String.mk (pre ++ URIPAT ++ url ++ '\"' :: post)) "#EXT-X-KEY" = true)
    (hnone : py_startswith (String.mk (pre ++ URIPAT ++ url ++ '\"' :: post))
        "#EXT-X-KEY:METHOD=NONE" = false)
    (hqpre : '\"' ∉ pre) (hqurl : '\"' ∉ url) (hpost : findOcc URIPAT post = none) :
    extract_key_line fetch publish (String.mk (pre ++ URIPAT ++ url ++ '\"' :: post)) =
      some (String.mk (pre ++ URIPAT ++
        (publish (real_key_of (fetch (String.mk url)))).toList ++ '\"' :: post)) := by
  have htl : (String.mk (pre ++ URIPAT ++ url ++ '\"' :: post)).toList =
      pre ++ URIPAT ++ url ++ '\"' :: post := rfl
  simp only [extract_key_line, hkey, Bool.not_true, Bool.false_eq_true, if_false, hnone, htl,
    pat_search_decomp pre url post hqpre hqurl]
  rw [pat_sub_single _ _ _ _ hqpre hqurl hpost]
  congr 1
  simp only [show ("URI=\"".toList : List Char) = ['U', 'R', 'I', '=', '\"'] from rfl,
    URIPAT_eq, List.append_assoc, List.cons_append, List.nil_append]

theorem extract_enc_keys_spec (fetch : String → List Nat) (publish : List Nat → String) :
    ∀ (lines out : List String), extract_enc_keys fetch publish lines = some out →
      out.length = lines.length ∧
        ∀ i, i < lines.length →
          extract_key_line fetch publish (lines.getD i "") = some (out.getD i "") := by
  intro lines
  induction lines with
  | nil =>
    intro out h
    simp only [extract_enc_keys, Option.some.injEq] at h
    subst h
    exact ⟨rfl, fun i hi => absurd hi (by simp)⟩
  | cons a rest ih =>
    intro out h
    simp only [extract_enc_keys] at h
    cases ha : extract_key_line fetch publish a with
    | none =>
      simp only [ha] at h
      exact Option.noConfusion h
    | some a2 =>
      simp only [ha] at h
      cases hrest : extract_enc_keys fetch publish rest with
      | none =>
        simp only [hrest] at h
        exact Option.noConfusion h
      | some r2 =>
        simp only [hrest, Option.some.injEq] at h
        subst h
        obtain ⟨hlen, hidx⟩ := ih r2 hrest
        refine ⟨by simp [hlen], ?_⟩
        intro i hi
        cases i with
        | zero => simpa using ha
        | succ i => simpa using hidx i (Nat.lt_of_succ_lt_succ hi)

end KeyRewriteLemmas

section ClaimsC4C5

/-- Claim C4: on success, the key rewriter preserves the list's length and
the positions of all lines; a line not starting with the key-directive
prefix, and a line starting with the no-encryption sentinel
`#EXT-X-KEY:METHOD=NONE`, are left byte-for-byte unchanged; every other
key-directive line (with its quoted `URI="..."` attribute decomposed as
`pre ++ URI=" ++ url ++ " ++ post`, the quotes and further matches placed
as the regex requires) has exactly the quoted URI attribute replaced by
the published local URL, with `pre` and `post` preserved verbatim. -/
theorem claim_C4_frame (fetch : String → List Nat) (publish : List Nat → String)
    (lines out : List String) (h : extract_enc_keys fetch publish lines = some out) :
    out.length = lines.length ∧
    ∀ i, i < lines.length →
      (py_startswith (lines.getD i "") "#EXT-X-KEY" = false →
        out.getD i "" = lines.getD i "") ∧
      (py_startswith (lines.getD i "") "#EXT-X-KEY:METHOD=NONE" = true →
        out.getD i "" = lines.getD i "") ∧
      (∀ pre url post, lines.getD i "" = String.mk (pre ++ URIPAT ++ url ++ '\"' :: post) →
        py_startswith (lines.getD i "") "#EXT-X-KEY" = true →
        py_startswith (lines.getD i "") "#EXT-X-KEY:METHOD=NONE" = false →
        '\"' ∉ pre → '\"' ∉ url → findOcc URIPAT post = none →
        out.getD i "" = String.mk (pre ++ URIPAT ++
          (publish (real_key_of (fetch (String.mk url)))).toList ++ '\"' :: post)) := by
  obtain ⟨hlen, hidx⟩ := extract_enc_keys_spec fetch publish lines out h
  refine ⟨hlen, fun i hi => ⟨?_, ?_, ?_⟩⟩
  · intro hnk
    have hx := hidx i hi
    rw [extract_key_line_nonkey fetch publish _ hnk] at hx
    exact (Option.some.inj hx).symm
  · intro hmn
    have hx := hidx i hi
    rw [extract_key_line_method_none fetch publish _ hmn] at hx
    exact (Option.some.inj hx).symm
  · intro pre url post hdec hk hn hp hu hpost
    have hx := hidx i hi
    rw [hdec] at hx
    rw [extract_key_line_rewrite fetch publish pre url post (hdec ▸ hk) (hdec ▸ hn)
      hp hu hpost] at hx
    exact (Option.some.inj hx).symm

theorem claim_C4_witness :
    extract_enc_keys (fun _ => List.range 32) (fun _ => "http://localhost:1/x.key")
        ["#EXTM3U", "#EXT-X-KEY:METHOD=NONE",
         "#EXT-X-KEY:METHOD=AES-128,URI=\"http://h/k\",IV=0x1", "s.ts"] =
      some ["#EXTM3U", "#EXT-X-KEY:METHOD=NONE",
            "#EXT-X-KEY:METHOD=AES-128,URI=\"http://localhost:1/x.key\",IV=0x1", "s.ts"] ∧
    (["#EXTM3U", "#EXT-X-KEY:METHOD=NONE",
      "#EXT-X-KEY:METHOD=AES-128,URI=\"http://localhost:1/x.key\",IV=0x1",
      "s.ts"] : List String).length =
      (["#EXTM3U", "#EXT-X-KEY:METHOD=NONE",
        "#EXT-X-KEY:METHOD=AES-128,URI=\"http://h/k\",IV=0x1",
        "s.ts"] : List String).length :=
  ⟨by decide,
    (claim_C4_frame (fun _ => List.range 32) (fun _ => "http://localhost:1/x.key")
      ["#EXTM3U", "#EXT-X-KEY:METHOD=NONE",
       "#EXT-X-KEY:METHOD=AES-128,URI=\"http://h/k\",IV=0x1", "s.ts"]
      ["#EXTM3U", "#EXT-X-KEY:METHOD=NONE",
       "#EXT-X-KEY:METHOD=AES-128,URI=\"http://localhost:1/x.key\",IV=0x1", "s.ts"]
      (by decide)).1⟩

/-- Claim C5: the real decryption key computed by the key rewriter is the
reversal of the fetched byte sequence truncated to its first 16 bytes; in
particular, for input `bytes(range(32))` the result is
`bytes(range(31, 15, -1))`, and a rewritten key line publishes exactly
that transform of the fetched bytes. -/
theorem claim_C5_real_key (orig : List Nat) (fetch : String → List Nat)
    (publish : List Nat → String) (pre url post : List Char)
    (hkey : py_startswith (String.mk (pre ++ URIPAT ++ url ++ '\"' :: post)) "#EXT-X-KEY" = true)
    (hnone : py_startswith (String.mk (pre ++ URIPAT ++ url ++ '\"' :: post))
        "#EXT-X-KEY:METHOD=NONE" = false)
    (hqpre : '\"' ∉ pre) (hqurl : '\"' ∉ url) (hpost : findOcc URIPAT post = none) :
    real_key_of orig = orig.reverse.take 16 ∧
    real_key_of (List.range 32) =
      [31, 30, 29, 28, 27, 26, 25, 24, 23, 22, 21, 20, 19, 18, 17, 16] ∧
    extract_key_line fetch publish (String.mk (pre ++ URIPAT ++ url ++ '\"' :: post)) =
      some (String.mk (pre ++ URIPAT ++
        (publish ((fetch (String.mk url)).reverse.take 16)).toList ++ '\"' :: post)) :=
  ⟨rfl, by decide,
    extract_key_line_rewrite fetch publish pre url post hkey hnone hqpre hqurl hpost⟩

theorem claim_C5_witness :
    real_key_of (List.range 32) =
      [31, 30, 29, 28, 27, 26, 25, 24, 23, 22, 21, 20, 19, 18, 17, 16] ∧
    extract_key_line (fun _ => List.range 32) (fun k => String.intercalate "," (k.map toString))
        (String.mk ("#EXT-X-KEY:METHOD=AES-128,URI=\"".toList ++ "http://h/k".toList ++
          '\"' :: [])) =
      some (String.mk ("#EXT-X-KEY:METHOD=AES-128,URI=\"".toList ++
        ((fun k => String.intercalate "," (k.map toString))
            (((fun (_ : String) => List.range 32) (String.mk "http://h/k".toList)).reverse.take
              16)).toList ++ '\"' :: [])) := by
  have h := claim_C5_real_key (List.range 32) (fun _ => List.range 32)
    (fun k => String.intercalate "," (k.map toString))
    "#EXT-X-KEY:METHOD=AES-128,".toList "http://h/k".toList [] (by decide) (by decide)
    (by decide) (by decide) (by decide)
  exact ⟨h.2.1, h.2.2⟩

end ClaimsC4C5

section ClaimC6

theorem dict_max_key_acc (l : List (String × String)) :
    ∀ a : String,
      ∃ m, l.foldl
          (fun acc p =>
            match acc with
            | none => some p.1
            | some m => some (if m < p.1 then p.1 else m))
          (some a) = some m ∧
        (m = a ∨ m ∈ l.map Prod.fst) ∧ a ≤ m ∧ ∀ k ∈ l.map Prod.fst, k ≤ m := by
  induction l with
  | nil =>
    intro a
    exact ⟨a, rfl, Or.inl rfl, le_refl a, by simp⟩
  | cons p l ih =>
    intro a
    obtain ⟨m, hm, hmem, hle, hall⟩ := ih (if a < p.1 then p.1 else a)
    refine ⟨m, hm, ?_, ?_, ?_⟩
    · rcases hmem with rfl | hmem
      · by_cases hap : a < p.1
        · rw [if_pos hap]
          exact Or.inr (by simp)
        · rw [if_neg hap]
          exact Or.inl rfl
      · exact Or.inr (List.mem_cons_of_mem _ hmem)
    · refine le_trans ?_ hle
      by_cases hap : a < p.1
      · rw [if_pos hap]; exact le_of_lt hap
      · rw [if_neg hap]
    · intro k hk
      rcases List.mem_cons.mp hk with rfl | hk
      · refine le_trans ?_ hle
        by_cases hap : a < p.1
        · rw [if_pos hap]
        · rw [if_neg hap]; exact le_of_not_lt hap
      · exact hall k hk

theorem dict_max_key_spec (variants : List (String × String)) (hne : variants ≠ []) :
    ∃ m, dict_max_key variants = some m ∧ m ∈ variants.map Prod.fst ∧
      ∀ k ∈ variants.map Prod.fst, k ≤ m := by
  cases variants with
  | nil => exact absurd rfl hne
  | cons p l =>
    obtain ⟨m, hm, hmem, hle, hall⟩ := dict_max_key_acc l p.1
    refine ⟨m, hm, ?_, ?_⟩
    · rcases hmem with rfl | hmem
      · simp
      · exact List.mem_cons_of_mem _ hmem
    · intro k hk
      rcases List.mem_cons.mp hk with rfl | hk
      · exact hle
      · exact hall k hk

/-- Claim C6 (amended: the requested label's variant is returned when it is
present with non-empty text; when the label is absent or its text is
empty, the variant of the greatest-sorting label is returned): quality
selection of `get_variant_playlist`, including `None` on an empty variant
dictionary and the 450p-for-720p fallback. -/
theorem claim_C6_variant_selection :
    (∀ (variants : List (String × String)) (q X : String),
      (q = "720p" ∨ q = "450p") → variants.lookup q = some X → X ≠ "" →
      get_variant_playlist variants q = some (some X)) ∧
    (∀ (variants : List (String × String)) (q : String),
      (q = "720p" ∨ q = "450p") → variants ≠ [] →
      (variants.lookup q = none ∨ variants.lookup q = some "") →
      ∃ m, dict_max_key variants = some m ∧ m ∈ variants.map Prod.fst ∧
        (∀ k ∈ variants.map Prod.fst, k ≤ m) ∧
        get_variant_playlist variants q = some (variants.lookup m)) ∧
    (∀ q : String, (q = "720p" ∨ q = "450p") → get_variant_playlist [] q = some none) ∧
    (∀ X : String, get_variant_playlist [("450p", X)] "720p" = some (some X)) := by
  refine ⟨?_, ?_, ?_, ?_⟩
  · intro variants q X hq hlk hX
    cases variants with
    | nil => simp [List.lookup] at hlk
    | cons p l =>
      simp only [get_variant_playlist, if_pos hq, List.isEmpty_cons, Bool.false_eq_true,
        if_false]
      rw [hlk]
      rw [if_neg (by simp [hX])]
  · intro variants q hq hne hfall
    obtain ⟨m, hm, hmem, hall⟩ := dict_max_key_spec variants hne
    refine ⟨m, hm, hmem, hall, ?_⟩
    cases variants with
    | nil => exact absurd rfl hne
    | cons p l =>
      simp only [get_variant_playlist, if_pos hq, List.isEmpty_cons, Bool.false_eq_true,
        if_false]
      rw [if_pos hfall, hm]
  · intro q hq
    rcases hq with rfl | rfl <;> decide
  · intro X
    rfl

/-- C6's counterexample to the claim as frozen: the requested label is
present, but because its text is empty the code falls back to the
greatest-sorting label instead of returning it. -/
theorem claim_C6_counterexample :
    List.lookup "450p" [("450p", ""), ("720p", "X")] = some "" ∧
    get_variant_playlist [("450p", ""), ("720p", "X")] "450p" = some (some "X") := by
  constructor
  · decide
  · have hlt : ("450p" : String) < "720p" := by
      rw [String.lt_iff_toList_lt]; decide
    have hdm : dict_max_key [("450p", ""), ("720p", "X")] = some "720p" := by
      simp only [dict_max_key, List.foldl]
      rw [if_pos hlt]
    have hq : ("450p" : String) = "720p" ∨ ("450p" : String) = "450p" := Or.inr rfl
    have hlk : (List.lookup "450p" [("450p", ""), ("720p", "X")] : Option String) = some "" :=
      by decide
    have hlk2 : (List.lookup "720p" [("450p", ""), ("720p", "X")] : Option String) =
        some "X" := by decide
    simp only [get_variant_playlist, if_pos hq, List.isEmpty_cons, Bool.false_eq_true,
      if_false, hlk, hlk2, hdm]
    simp

theorem claim_C6_witness :
    get_variant_playlist [("450p", "A"), ("720p", "B")] "720p" = some (some "B") ∧
    get_variant_playlist [] "450p" = some none ∧
    get_variant_playlist [("450p", "C")] "720p" = some (some "C") :=
  ⟨claim_C6_variant_selection.1 [("450p", "A"), ("720p", "B")] "720p" "B" (Or.inl rfl)
      (by decide) (by decide),
    claim_C6_variant_selection.2.2.1 "450p" (Or.inr rfl),
    claim_C6_variant_selection.2.2.2 "C"⟩

end ClaimC6

section AddInputsLemmas

theorem add_inputs_loop_skip_all (fetch : String → List Nat) (publish : List Nat → String)
    (geturl : String → String) (token : String) (a : Nat) (ha : a ≠ 0) :
    ∀ l : List (Nat × List String), (∀ p ∈ l, p.1 ≠ a) →
      add_inputs_loop fetch publish geturl token a l = some ([], []) := by
  intro l
  induction l with
  | nil => intro _; rfl
  | cons p rest ih =>
    intro h
    cases p with
    | mk num q =>
      have hp : num ≠ a := h (num, q) (List.mem_cons_self _ _)
      simp only [add_inputs_loop, if_pos (And.intro ha hp)]
      exact ih (fun r hr => h r (List.mem_cons_of_mem _ hr))

theorem add_inputs_loop_single (fetch : String → List Nat) (publish : List Nat → String)
    (geturl : String → String) (token : String) (a : Nat) (pls b : List String)
    (ha : a ≠ 0) (hex : extract_enc_keys fetch publish pls = some b) :
    ∀ l : List (Nat × List String), (l.map Prod.fst).Nodup → (a, pls) ∈ l →
      add_inputs_loop fetch publish geturl token a l =
        some (cookies_arg token ++ extra_arg ++
            ["-i", geturl (String.intercalate "\n" b)],
          ["Extracting encryption keys for angle " ++ toString a]) := by
  intro l
  induction l with
  | nil => intro _ hmem; simp at hmem
  | cons p rest ih =>
    intro hnd hmem
    cases p with
    | mk num q =>
      rw [List.map_cons, List.nodup_cons] at hnd
      by_cases hna : num = a
      · have hq2 : q = pls := by
          rcases List.mem_cons.mp hmem with heq | hmem'
          · exact (congrArg Prod.snd heq).symm
          · exact absurd (show num ∈ List.map Prod.fst rest by
              rw [hna]; exact List.mem_map_of_mem Prod.fst hmem') hnd.1
        have hcond : ¬(a ≠ 0 ∧ num ≠ a) := by simp [hna]
        simp only [add_inputs_loop, if_neg hcond]
        rw [hq2]
        simp only [hex]
        rw [add_inputs_loop_skip_all fetch publish geturl token a ha rest
          (fun r hr hra => absurd (show num ∈ List.map Prod.fst rest by
            rw [hna]; exact hra ▸ List.mem_map_of_mem Prod.fst hr) hnd.1)]
        simp [hna]
      · have hmem' : (a, pls) ∈ rest := by
          rcases List.mem_cons.mp hmem with heq | hmem'
          · exact absurd (congrArg Prod.fst heq).symm hna
          · exact hmem'
        simp only [add_inputs_loop, if_pos (And.intro ha hna)]
        exact ih hnd.2 hmem'

theorem add_inputs_loop_all_msgs (fetch : String → List Nat) (publish : List Nat → String)
    (geturl : String → String) (token : String) :
    ∀ (l : List (Nat × List String)) (c m : List String),
      add_inputs_loop fetch publish geturl token 0 l = some (c, m) →
      m = l.map (fun p => "Extracting encryption keys for angle " ++ toString p.1) := by
  intro l
  induction l with
  | nil =>
    intro c m h
    simp only [add_inputs_loop, Option.some.injEq, Prod.mk.injEq] at h
    simp [← h.2]
  | cons p rest ih =>
    intro c m h
    cases p with
    | mk num q =>
      simp only [add_inputs_loop,
        if_neg (show ¬((0 : Nat) ≠ 0 ∧ num ≠ 0) by simp)] at h
      cases hq : extract_enc_keys fetch publish q with
      | none =>
        simp only [hq] at h
        exact Option.noConfusion h
      | some b =>
        simp only [hq] at h
        cases hrest : add_inputs_loop fetch publish geturl token 0 rest with
        | none =>
          simp only [hrest] at h
          exact Option.noConfusion h
        | some cm =>
          cases cm with
          | mk c2 m2 =>
            simp only [hrest, Option.some.injEq, Prod.mk.injEq] at h
            rw [← h.2, List.map_cons, ih c2 m2 hrest]

end AddInputsLemmas

section ClaimC7

/-- Claim C7: with the available angle playlists keyed 1..n as the splitter
produces them, selector 0 processes every available angle with no warning;
a selector strictly greater than the number of available angles prints the
warning naming the available angles and proceeds exactly as selector 0
(all angles); a selector between 1 and n selects exactly that one
angle. -/
theorem claim_C7_angle_selection (fetch : String → List Nat) (publish : List Nat → String)
    (geturl : String → String) (token : String) (cmd : List String)
    (aps : List (Nat × List String))
    (hkeys : aps.map Prod.fst = List.range' 1 aps.length) :
    (∀ c m, add_inputs fetch publish geturl token cmd aps 0 = some (c, m) →
      m = aps.map (fun p => "Extracting encryption keys for angle " ++ toString p.1)) ∧
    (∀ a, a > aps.length → ∀ c m,
      add_inputs fetch publish geturl token cmd aps 0 = some (c, m) →
      add_inputs fetch publish geturl token cmd aps a =
        some (c, invalid_angle_msg a aps :: m)) ∧
    (∀ a pls b, 1 ≤ a → a ≤ aps.length → (a, pls) ∈ aps →
      extract_enc_keys fetch publish pls = some b →
      add_inputs fetch publish geturl token cmd aps a =
        some (cmd ++ (cookies_arg token ++ extra_arg ++
              ["-i", geturl (String.intercalate "\n" b)]) ++
            ["-map", "0:v:0"] ++ ["-map", "0:a:0"],
          ["Extracting encryption keys for angle " ++ toString a])) := by
  refine ⟨?_, ?_, ?_⟩
  · intro c m h
    simp only [add_inputs, if_neg (show ¬((0 : Nat) > aps.length) by omega),
      List.nil_append] at h
    cases hloop : add_inputs_loop fetch publish geturl token 0 aps with
    | none =>
      simp only [hloop] at h
      exact Option.noConfusion h
    | some cm =>
      cases cm with
      | mk cmds msgs =>
        simp only [hloop, Option.some.injEq, Prod.mk.injEq] at h
        rw [← h.2]
        exact add_inputs_loop_all_msgs fetch publish geturl token aps cmds msgs hloop
  · intro a hgt c m h0
    simp only [add_inputs, if_neg (show ¬((0 : Nat) > aps.length) by omega),
      List.nil_append] at h0
    simp only [add_inputs, if_pos hgt]
    cases hloop : add_inputs_loop fetch publish geturl token 0 aps with
    | none =>
      simp only [hloop] at h0
      exact Option.noConfusion h0
    | some cm =>
      cases cm with
      | mk cmds msgs =>
        simp only [hloop, Option.some.injEq, Prod.mk.injEq] at h0 ⊢
        exact ⟨h0.1, by rw [h0.2]; rfl⟩
  · intro a pls b h1le h2le hmem hex
    have ha : a ≠ 0 := by omega
    have hnd : (aps.map Prod.fst).Nodup := by
      rw [hkeys]; exact List.nodup_range' _ _
    have hloop := add_inputs_loop_single fetch publish geturl token a pls b ha hex
      aps hnd hmem
    have hmap : (List.range (if a ≠ 0 then 1 else aps.length)).flatMap
        (fun i => ["-map", toString i ++ ":v:0"]) = ["-map", "0:v:0"] := by
      rw [if_pos ha]
      rfl
    simp only [add_inputs, if_neg (show ¬(a > aps.length) by omega), hloop, hmap,
      List.nil_append]

end ClaimC7

section ClaimC8

theorem claim_C7_witness :
    add_inputs (fun _ => []) (fun _ => "k") (fun _ => "http://u") "t" ["ffmpeg"]
        [(1, ["s1.ts"]), (2, ["s2.ts"])] 2 =
      some (["ffmpeg"] ++ (cookies_arg "t" ++ extra_arg ++
            ["-i", (fun (_ : String) => "http://u") (String.intercalate "\n" ["s2.ts"])]) ++
          ["-map", "0:v:0"] ++ ["-map", "0:a:0"],
        ["Extracting encryption keys for angle " ++ toString 2]) :=
  (claim_C7_angle_selection (fun _ => []) (fun _ => "k") (fun _ => "http://u") "t" ["ffmpeg"]
    [(1, ["s1.ts"]), (2, ["s2.ts"])] (by decide)).2.2 2 ["s2.ts"] ["s2.ts"]
    (by decide) (by decide) (by decide) (by decide)

theorem ne_of_startswith_http (s : String) (h : py_startswith s "http" = true) :
    s ≠ "-i" ∧ s ≠ "-map" := by
  constructor <;> intro he <;> rw [he] at h <;> exact absurd h (by decide)

theorem cookie_val_ne (t : String) :
    ("Bearer=" ++ t ++ "; path=/") ≠ "-i" ∧ ("Bearer=" ++ t ++ "; path=/") ≠ "-map" := by
  have h7 : ("Bearer=" : String).length = 7 := rfl
  have h8 : ("; path=/" : String).length = 8 := rfl
  constructor
  · intro he
    have hl := congrArg String.length he
    rw [String.length_append, String.length_append, h7, h8,
      show ("-i" : String).length = 2 from rfl] at hl
    omega
  · intro he
    have hl := congrArg String.length he
    rw [String.length_append, String.length_append, h7, h8,
      show ("-map" : String).length = 4 from rfl] at hl
    omega

theorem block_count (token u : String) (hu : py_startswith u "http" = true) :
    (cookies_arg token ++ extra_arg ++ ["-i", u]).count "-i" = 1 ∧
    (cookies_arg token ++ extra_arg ++ ["-i", u]).count "-map" = 0 := by
  have hui := (ne_of_startswith_http u hu).1
  have hum := (ne_of_startswith_http u hu).2
  have hci := (cookie_val_ne token).1
  have hcm := (cookie_val_ne token).2
  constructor <;>
    simp [cookies_arg, extra_arg, List.count_append, List.count_cons, hui, hum, hci, hcm]

/-- Claim C8: for a two-angle variant playlist with angle selector 0, the
built argument list has exactly two `-i` clauses (one per angle, in angle
order) and exactly three `-map` clauses: one video track per input
followed by exactly one `-map 0:a:0` audio track from the first input. -/
theorem claim_C8_two_angle_invocation (fetch : String → List Nat)
    (publish : List Nat → String) (geturl : String → String) (token : String)
    (a1 a2 b1 b2 : List String)
    (h1 : extract_enc_keys fetch publish a1 = some b1)
    (h2 : extract_enc_keys fetch publish a2 = some b2)
    (hget : ∀ s, py_startswith (geturl s) "http" = true) :
    ∃ c, add_inputs fetch publish geturl token ["ffmpeg", "-loglevel", "error"]
        [(1, a1), (2, a2)] 0 =
        some (c, ["Extracting encryption keys for angle 1",
                  "Extracting encryption keys for angle 2"]) ∧
      c = ["ffmpeg", "-loglevel", "error"] ++
          (cookies_arg token ++ extra_arg ++
            ["-i", geturl (String.intercalate "\n" b1)] ++
            (cookies_arg token ++ extra_arg ++
              ["-i", geturl (String.intercalate "\n" b2)] ++ [])) ++
          ["-map", "0:v:0", "-map", "1:v:0"] ++ ["-map", "0:a:0"] ∧
      c.count "-i" = 2 ∧ c.count "-map" = 3 := by
  have hloop : add_inputs_loop fetch publish geturl token 0 [(1, a1), (2, a2)] =
      some (cookies_arg token ++ extra_arg ++
          ["-i", geturl (String.intercalate "\n" b1)] ++
          (cookies_arg token ++ extra_arg ++
            ["-i", geturl (String.intercalate "\n" b2)] ++ []),
        ["Extracting encryption keys for angle " ++ toString (1 : Nat),
         "Extracting encryption keys for angle " ++ toString (2 : Nat)]) := by
    simp only [add_inputs_loop, if_neg (show ¬((0 : Nat) ≠ 0 ∧ (1 : Nat) ≠ 0) by simp),
      if_neg (show ¬((0 : Nat) ≠ 0 ∧ (2 : Nat) ≠ 0) by simp), h1, h2]
  have hm1 : "Extracting encryption keys for angle " ++ toString (1 : Nat) =
      "Extracting encryption keys for angle 1" := by decide
  have hm2 : "Extracting encryption keys for angle " ++ toString (2 : Nat) =
      "Extracting encryption keys for angle 2" := by decide
  have hmap2 : (List.range
        (if (0 : Nat) ≠ 0 then 1 else ([(1, a1), (2, a2)] : List (Nat × List String)).length)).flatMap
        (fun i => ["-map", toString i ++ ":v:0"]) =
      ["-map", "0:v:0", "-map", "1:v:0"] := by
    rw [if_neg (show ¬((0 : Nat) ≠ 0) by simp),
      show ([(1, a1), (2, a2)] : List (Nat × List String)).length = 2 from rfl]
    decide
  refine ⟨_, ?_, rfl, ?_, ?_⟩
  · simp only [add_inputs, if_neg (show ¬((0 : Nat) >
        ([(1, a1), (2, a2)] : List (Nat × List String)).length) by omega),
      hloop, hmap2, List.nil_append, hm1, hm2]
  · have hui1 := (ne_of_startswith_http _ (hget (String.intercalate "\n" b1))).1
    have hui2 := (ne_of_startswith_http _ (hget (String.intercalate "\n" b2))).1
    have hci := (cookie_val_ne token).1
    simp [cookies_arg, extra_arg, List.count_append, List.count_cons, hui1, hui2, hci]
  · have hum1 := (ne_of_startswith_http _ (hget (String.intercalate "\n" b1))).2
    have hum2 := (ne_of_startswith_http _ (hget (String.intercalate "\n" b2))).2
    have hcm := (cookie_val_ne token).2
    simp [cookies_arg, extra_arg, List.count_append, List.count_cons, hum1, hum2, hcm]

theorem claim_C8_witness :
    ∃ c, add_inputs (fun _ => []) (fun _ => "k") (fun _ => "http://u") "t"
        ["ffmpeg", "-loglevel", "error"] [(1, ["x.ts"]), (2, ["y.ts"])] 0 =
        some (c, ["Extracting encryption keys for angle 1",
                  "Extracting encryption keys for angle 2"]) ∧
      c = ["ffmpeg", "-loglevel", "error"] ++
          (cookies_arg "t" ++ extra_arg ++
            ["-i", (fun (_ : String) => "http://u") (String.intercalate "\n" ["x.ts"])] ++
            (cookies_arg "t" ++ extra_arg ++
              ["-i", (fun (_ : String) => "http://u") (String.intercalate "\n" ["y.ts"])] ++
              [])) ++
          ["-map", "0:v:0", "-map", "1:v:0"] ++ ["-map", "0:a:0"] ∧
      c.count "-i" = 2 ∧ c.count "-map" = 3 :=
  claim_C8_two_angle_invocation (fun _ => []) (fun _ => "k") (fun _ => "http://u") "t"
    ["x.ts"] ["y.ts"] ["x.ts"] ["y.ts"] (by decide) (by decide)
    (fun _ => (by decide : py_startswith "http://u" "http" = true))

end ClaimC8

section SplitlinesLemmas

theorem takeLine_decomp : ∀ cs : List Char,
    ∃ br, cs = (takeLine cs).1 ++ (br ++ (takeLine cs).2) := by
  intro cs
  induction cs with
  | nil => exact ⟨[], rfl⟩
  | cons c rest ih =>
    by_cases hc : c = '\r'
    · subst hc
      by_cases hh : rest.head? = some '\n'
      · cases rest with
        | nil => simp at hh
        | cons r0 rtl =>
          have hr0 : r0 = '\n' := by simpa using hh
          subst hr0
          refine ⟨['\r', '\n'], ?_⟩
          simp [takeLine, hh]
      · refine ⟨['\r'], ?_⟩
        simp [takeLine, hh]
    · by_cases hb : isLineBreak c = true
      · refine ⟨[c], ?_⟩
        simp [takeLine, hc, hb]
      · obtain ⟨br, hbr⟩ := ih
        refine ⟨br, ?_⟩
        simp only [takeLine, if_neg hc, if_neg hb, List.cons_append]
        exact congrArg (List.cons c) hbr

theorem splitlines_go_mem : ∀ (fuel : Nat) (cs : List Char) (l : List Char),
    l ∈ splitlines_go fuel cs → ∃ pre post, cs = pre ++ (l ++ post) := by
  intro fuel
  induction fuel with
  | zero =>
    intro cs l h
    cases cs with
    | nil => simp [splitlines_go] at h
    | cons c r => simp [splitlines_go] at h
  | succ f ih =>
    intro cs l h
    cases cs with
    | nil => simp [splitlines_go] at h
    | cons c r =>
      simp only [splitlines_go] at h
      rcases List.mem_cons.mp h with rfl | h2
      · obtain ⟨br, hbr⟩ := takeLine_decomp (c :: r)
        exact ⟨[], br ++ (takeLine (c :: r)).2, by simpa using hbr⟩
      · obtain ⟨pre, post, hpp⟩ := ih _ _ h2
        obtain ⟨br, hbr⟩ := takeLine_decomp (c :: r)
        refine ⟨(takeLine (c :: r)).1 ++ (br ++ pre), post, ?_⟩
        conv_lhs => rw [hbr]
        rw [hpp]
        simp [List.append_assoc]

theorem findOcc_none_no_occurrence (pat : List Char) :
    ∀ cs, findOcc pat cs = none → ∀ pre t, cs ≠ pre ++ (pat ++ t) := by
  intro cs
  induction cs with
  | nil =>
    intro h pre t he
    simp only [findOcc] at h
    by_cases hp : pat.isPrefixOf [] = true
    · rw [if_pos hp] at h
      exact Option.noConfusion h
    · obtain ⟨hpre, hrest⟩ := List.append_eq_nil.mp he.symm
      obtain ⟨hpat, -⟩ := List.append_eq_nil.mp hrest
      rw [hpat] at hp
      exact hp (by decide)
  | cons c cs ih =>
    intro h pre t he
    simp only [findOcc] at h
    by_cases hp : pat.isPrefixOf (c :: cs) = true
    · rw [if_pos hp] at h
      exact Option.noConfusion h
    · rw [if_neg hp, Option.map_eq_none'] at h
      cases pre with
      | nil =>
        apply hp
        rw [isPrefixOf_exists]
        exact ⟨t, by simpa using he⟩
      | cons p0 ptl =>
        have hcs : cs = ptl ++ (pat ++ t) := by
          simp only [List.cons_append, List.cons.injEq] at he
          exact he.2
        exact ih h ptl t hcs

theorem no_contains_no_line (s pat : String) (h : py_contains s pat = false) :
    ∀ l ∈ splitlines s, py_startswith l pat = false := by
  intro l hl
  by_contra hb
  rw [Bool.not_eq_false] at hb
  rw [py_startswith, isPrefixOf_exists] at hb
  obtain ⟨t, ht⟩ := hb
  rw [splitlines] at hl
  obtain ⟨lc, hlc, rfl⟩ := List.mem_map.mp hl
  obtain ⟨pre, post, hpp⟩ := splitlines_go_mem _ _ _ hlc
  rw [py_contains] at h
  cases hocc : findOcc pat.toList s.toList with
  | some i =>
    rw [hocc] at h
    simp at h
  | none =>
    apply findOcc_none_no_occurrence pat.toList s.toList hocc pre (t ++ post)
    rw [hpp]
    have hlc2 : lc = pat.toList ++ t := ht
    rw [hlc2]
    simp [List.append_assoc]

theorem extract_enc_keys_id (fetch : String → List Nat) (publish : List Nat → String) :
    ∀ lines : List String, (∀ l ∈ lines, py_startswith l "#EXT-X-KEY" = false) →
      extract_enc_keys fetch publish lines = some lines := by
  intro lines
  induction lines with
  | nil => intro _; rfl
  | cons a rest ih =>
    intro h
    have ha := h a (List.mem_cons_self _ _)
    simp only [extract_enc_keys, extract_key_line_nonkey fetch publish a ha,
      ih (fun l hl => h l (List.mem_cons_of_mem _ hl))]

end SplitlinesLemmas

section ClaimC9

/-- Claim C9: a variant playlist containing no key directive is treated as
a single angle without invoking the angle splitter; every playlist line is
published unchanged (the `-i` input is the original lines re-joined), the
result does not depend on the key-fetching effects, and the final
invocation contains exactly one `-i` clause. -/
theorem claim_C9_unencrypted (fetch : String → List Nat) (publish : List Nat → String)
    (geturl : String → String) (token variant_pls output_file : String)
    (hnokey : py_contains variant_pls "#EXT-X-KEY" = false)
    (hget : ∀ s, py_startswith (geturl s) "http" = true)
    (hout : output_file ≠ "-i") :
    ∃ c, download_stream_core fetch publish geturl token variant_pls output_file 0 =
        some (c, ["Extracting encryption keys for angle 1"]) ∧
      c = ["ffmpeg", "-loglevel", "error"] ++
          (cookies_arg token ++ extra_arg ++
            ["-i", geturl (String.intercalate "\n" (splitlines variant_pls))] ++ []) ++
          ["-map", "0:v:0"] ++ ["-map", "0:a:0"] ++ ["-c", "copy", output_file] ∧
      c.count "-i" = 1 := by
  have hlines := no_contains_no_line variant_pls "#EXT-X-KEY" hnokey
  have hext := extract_enc_keys_id fetch publish (splitlines variant_pls) hlines
  have hloop : add_inputs_loop fetch publish geturl token 0 [(1, splitlines variant_pls)] =
      some (cookies_arg token ++ extra_arg ++
          ["-i", geturl (String.intercalate "\n" (splitlines variant_pls))] ++ [],
        ["Extracting encryption keys for angle " ++ toString (1 : Nat)]) := by
    simp only [add_inputs_loop, if_neg (show ¬((0 : Nat) ≠ 0 ∧ (1 : Nat) ≠ 0) by simp), hext]
  have hmap1 : (List.range (if (0 : Nat) ≠ 0 then 1
        else ([(1, splitlines variant_pls)] : List (Nat × List String)).length)).flatMap
        (fun i => ["-map", toString i ++ ":v:0"]) = ["-map", "0:v:0"] := by
    rw [if_neg (show ¬((0 : Nat) ≠ 0) by simp),
      show ([(1, splitlines variant_pls)] : List (Nat × List String)).length = 1 from rfl]
    decide
  have hadd : add_inputs fetch publish geturl token ["ffmpeg", "-loglevel", "error"]
      [(1, splitlines variant_pls)] 0 =
      some (["ffmpeg", "-loglevel", "error"] ++
          (cookies_arg token ++ extra_arg ++
            ["-i", geturl (String.intercalate "\n" (splitlines variant_pls))] ++ []) ++
          ["-map", "0:v:0"] ++ ["-map", "0:a:0"],
        ["Extracting encryption keys for angle 1"]) := by
    simp only [add_inputs, if_neg (show ¬((0 : Nat) >
        ([(1, splitlines variant_pls)] : List (Nat × List String)).length) by omega),
      hloop, hmap1, List.nil_append]
    rw [show "Extracting encryption keys for angle " ++ toString (1 : Nat) =
      "Extracting encryption keys for angle 1" from by decide]
  refine ⟨_, ?_, rfl, ?_⟩
  · simp only [download_stream_core, hnokey, Bool.false_eq_true, if_false,
      List.isEmpty_cons, hadd]
  · have hui := (ne_of_startswith_http _
      (hget (String.intercalate "\n" (splitlines variant_pls)))).1
    have hci := (cookie_val_ne token).1
    simp [cookies_arg, extra_arg, List.count_append, List.count_cons, hui, hci, hout]

theorem claim_C9_witness :
    ∃ c, download_stream_core (fun _ => []) (fun _ => "k") (fun _ => "http://u") "t"
        "#EXTM3U\nseg.ts" "o.mp4" 0 =
        some (c, ["Extracting encryption keys for angle 1"]) ∧
      c = ["ffmpeg", "-loglevel", "error"] ++
          (cookies_arg "t" ++ extra_arg ++
            ["-i", (fun (_ : String) => "http://u")
              (String.intercalate "\n" (splitlines "#EXTM3U\nseg.ts"))] ++ []) ++
          ["-map", "0:v:0"] ++ ["-map", "0:a:0"] ++ ["-c", "copy", "o.mp4"] ∧
      c.count "-i" = 1 :=
  claim_C9_unencrypted (fun _ => []) (fun _ => "k") (fun _ => "http://u") "t"
    "#EXTM3U\nseg.ts" "o.mp4" (by decide)
    (fun _ => (by decide : py_startswith "http://u" "http" = true)) (by decide)

end ClaimC9
